import Mathlib

/-
Verification of the ecgtk QRS-detection pipeline (ecgtk/ecgtk.py).

The Python code is shallowly embedded over the rationals: numpy float
samples become rationals, numpy arrays become lists, exceptions become
Option/Except values.  Each definition mirrors one Python function of the
source; comments cite the source lines.
-/

namespace Ecgtk

set_option maxRecDepth 100000

/-! ### Python semantics helpers -/

/-- Python int() applied to a float: truncation toward zero.  Also models
numpy casts of float results into integer arrays. -/
def pyInt (q : ℚ) : ℤ := if 0 ≤ q then ⌊q⌋ else ⌈q⌉

/-- scipy.mean of a list of floats: sum divided by length. -/
def meanQ (l : List ℚ) : ℚ := l.sum / (l.length : ℚ)

/-- Python max() over a nonempty sequence of floats (0 on the empty list,
where Python would raise; every use below is guarded). -/
def pyMaxQ : List ℚ → ℚ
  | [] => 0
  | x :: xs => xs.foldl max x

/-- numpy .max() over a row of integers. -/
def pyMaxZ : List ℤ → ℤ
  | [] => 0
  | x :: xs => xs.foldl max x

/-- numpy .min() over a row of integers. -/
def pyMinZ : List ℤ → ℤ
  | [] => 0
  | x :: xs => xs.foldl min x

/-- numpy .argmax(): index of the first occurrence of the maximum. -/
def argmaxZ (l : List ℤ) : ℕ := l.indexOf (pyMaxZ l)

/-- numpy .argmin(): index of the first occurrence of the minimum. -/
def argminZ (l : List ℤ) : ℕ := l.indexOf (pyMinZ l)

/-- Insertion into a sorted list, used to model the sort inside
scipy.median. -/
def insertZ (x : ℤ) : List ℤ → List ℤ
  | [] => [x]
  | y :: ys => if x ≤ y then x :: y :: ys else y :: insertZ x ys

/-- Sorting a list of integers (insertion sort). -/
def sortZ : List ℤ → List ℤ
  | [] => []
  | x :: xs => insertZ x (sortZ xs)

/-- scipy.median of a row of integers: middle element of the sorted row,
or the mean of the two middle elements for even length. -/
def medianQ (l : List ℤ) : ℚ :=
  let s := sortZ l
  let n := s.length
  if n % 2 = 1 then ((s.getD (n / 2) 0 : ℤ) : ℚ)
  else (((s.getD (n / 2 - 1) 0 + s.getD (n / 2) 0 : ℤ) : ℚ)) / 2

/-! ### QRSDetector: peak extraction (ecgtk.py lines 306-343) -/

/-- ecgtk.py line 311: peak_indices, all strict local maxima of the
integrated ecg, scanning range(1, len(ecg)-1). -/
def localMaxIndices (ecg : List ℚ) : List ℕ :=
  (List.range' 1 (ecg.length - 2)).filter
    (fun i => decide (ecg.getD (i - 1) 0 < ecg.getD i 0) &&
              decide (ecg.getD (i + 1) 0 < ecg.getD i 0))

/-- ecgtk.py line 318: minimumRR = samplingrate * 0.2 (200 ms refractory
distance in samples). -/
def minimumRR (sr : ℕ) : ℚ := (sr : ℚ) * (0.2 : ℚ)

/-- ecgtk.py lines 325-341: the candidate-promotion scan over all local
maxima.  The accumulator is unique_peaks; the pending candidate that is
left when the scan ends is dropped, exactly as in the source. -/
def peakLoop (minRR : ℚ) : List (ℕ × ℚ) → ℕ → ℚ → List ℕ → List ℕ
  | [], _, _, acc => acc
  | (i, amp) :: rest, cand, candAmp, acc =>
    if ((i : ℚ) - (cand : ℚ) ≤ minRR) ∧ candAmp < amp then
      peakLoop minRR rest i amp acc
    else if minRR < (i : ℚ) - (cand : ℚ) then
      peakLoop minRR rest i amp (acc ++ [cand])
    else
      peakLoop minRR rest cand candAmp acc

/-- ecgtk.py lines 306-343, QRSDetector.peakDetect.  Line 321 reads
peak_indices[0], which raises IndexError when the signal has no strict
local maximum; that failure is modelled as none. -/
def peakDetect (sr : ℕ) (ecg : List ℚ) : Option (List ℕ) :=
  let idxs := localMaxIndices ecg
  let amps := idxs.map (fun i => ecg.getD i 0)
  match idxs with
  | [] => none
  | i0 :: _ => some (peakLoop (minimumRR sr) (idxs.zip amps) i0 (ecg.getD i0 0) [])

/-! ### QRSDetector: adaptive classifier state (ecgtk.py lines 287-398) -/

/-- The mutable detector state used by checkPeaks: the accumulated
QRSpeaks list and the three 8-slot buffers, plus the derived threshold. -/
structure ClassState where
  QRSpeaks : List ℤ
  signal_peak_buffer : List ℚ
  noise_peak_buffer : List ℚ
  rr_buffer : List ℚ
  threshold : ℚ
deriving Repr, DecidableEq

/-- ecgtk.py lines 299-304, QRSDetector._updateThreshold:
threshold = noise + 0.3125 * (signal - noise) from the buffer means. -/
def updateThreshold (st : ClassState) : ClassState :=
  let noise := meanQ st.noise_peak_buffer
  let signal := meanQ st.signal_peak_buffer
  { st with threshold := noise + (0.3125 : ℚ) * (signal - noise) }

/-- ecgtk.py lines 287-297, QRSDetector._initializeBuffers: seed the
signal-peak buffer with the maxima of the first 8 one-second windows,
the noise buffer with zeros, the rr buffer with ones, then compute the
threshold once. -/
def seedBuffers (sr : ℕ) (ecg : List ℚ) : ClassState :=
  updateThreshold
    { QRSpeaks := []
      signal_peak_buffer :=
        (List.range 8).map (fun start => pyMaxQ ((ecg.drop (start * sr)).take sr))
      noise_peak_buffer := List.replicate 8 0
      rr_buffer := List.replicate 8 1
      threshold := 0 }

/-- ecgtk.py lines 385-393, QRSDetector.acceptasQRS: append the peak,
rotate the signal buffer, rotate the rr buffer with the new RR interval.
No threshold update happens here in the source. -/
def acceptasQRS (st : ClassState) (peak : ℕ) (amplitude : ℚ) : ClassState :=
  let q := st.QRSpeaks ++ [(peak : ℤ)]
  let rb :=
    if 1 < q.length then
      st.rr_buffer.drop 1 ++ [((q.getD (q.length - 1) 0 - q.getD (q.length - 2) 0 : ℤ) : ℚ)]
    else st.rr_buffer
  { st with
      QRSpeaks := q
      signal_peak_buffer := st.signal_peak_buffer.drop 1 ++ [amplitude]
      rr_buffer := rb }

/-- ecgtk.py lines 396-398, QRSDetector.acceptasNoise: rotate the noise
buffer only.  No threshold update happens here in the source. -/
def acceptasNoise (st : ClassState) (_peak : ℕ) (amplitude : ℚ) : ClassState :=
  { st with noise_peak_buffer := st.noise_peak_buffer.drop 1 ++ [amplitude] }

/-- ecgtk.py lines 355-380, the body of the checkPeaks loop for one
(peak, next-peak) pair.  amp_ratio = amplitude / threshold is a numpy
float division: when the threshold is zero it yields plus or minus
infinity (or nan for a zero amplitude), so the branch taken is decided
by the sign of the amplitude; that is spelled out here because rational
division by zero would otherwise silently give 0. -/
def checkStep (sr : ℕ) (ecg : List ℚ) (st : ClassState) (pk : ℕ × ℕ) : ClassState :=
  let peak := pk.1
  let amplitude := ecg.getD peak 0
  if (if st.threshold = 0 then 0 < amplitude
      else 1 < amplitude / st.threshold) then
    acceptasQRS st peak amplitude
  else if (if st.threshold = 0 then amplitude < 0
           else amplitude / st.threshold < (0.5 : ℚ)) then
    acceptasNoise st peak amplitude
  else
    let meanrr := meanQ st.rr_buffer
    let lastQRS : ℤ := (st.QRSpeaks.getLast?).getD 0
    let lastQRS_to_this_peak : ℚ := ((peak : ℚ) - (lastQRS : ℚ)) / (sr : ℚ)
    let lastQRS_to_next_peak : ℚ := (pk.2 : ℚ) - (lastQRS : ℚ)
    if (0.36 : ℚ) < lastQRS_to_this_peak ∧ (1.5 : ℚ) * meanrr < lastQRS_to_next_peak then
      acceptasQRS st peak amplitude
    else
      acceptasNoise st peak amplitude

/-- ecgtk.py lines 346-383, QRSDetector.checkPeaks: QRSpeaks starts as
[0], the peak list is augmented with the last ecg index as a sentinel,
and each original peak is classified in order against its successor. -/
def checkPeaks (sr : ℕ) (ecg : List ℚ) (peaks : List ℕ) (st0 : ClassState) : ClassState :=
  let augmented := peaks ++ [ecg.length - 1]
  let pairs := peaks.zip (augmented.drop 1)
  pairs.foldl (checkStep sr ecg) { st0 with QRSpeaks := [0] }

/-- ecgtk.py line 382: the returned QRSpeaks drop the initial 0. -/
def acceptedQRS (sr : ℕ) (ecg : List ℚ) (peaks : List ℕ) : List ℤ :=
  (checkPeaks sr ecg peaks (seedBuffers sr ecg)).QRSpeaks.drop 1

/-- ecgtk.py line 188: QRSpeaks -= 40 * (samplingrate / 1000).  The
subtraction happens inside an integer numpy array, so a fractional delay
is truncated toward zero; there is no clamping at zero. -/
def delayComp (sr : ℕ) (q : ℤ) : ℤ := pyInt ((q : ℚ) - 40 * ((sr : ℚ) / 1000))

/-- ecgtk.py lines 158-190, QRSDetector.qrs_detect from the integrated
signal onward: buffer seeding, peak extraction, classification and delay
compensation.  (The band-pass, differentiation and integration stages
ahead of this point only shape the integrated signal and are external
scipy calls; this function is quantified over their output.) -/
def qrs_detect_post (sr : ℕ) (int_ecg : List ℚ) : Option (List ℤ) :=
  (peakDetect sr int_ecg).map
    (fun pks => (acceptedQRS sr int_ecg pks).map (delayComp sr))

/-! ### Multi-lead reconciliation (ecgtk.py lines 425-462) -/

/-- ecgtk.py line 430: ms90 = 90 * samplingrate / 1000. -/
def ms90 (sr : ℕ) : ℚ := 90 * (sr : ℚ) / 1000

/-- ecgtk.py line 443: near_inner = sum(all_values < inner + ms90). -/
def nearInner (sr : ℕ) (row : List ℤ) : ℕ :=
  (row.filter (fun v => decide ((v : ℚ) < (pyMinZ row : ℚ) + ms90 sr))).length

/-- ecgtk.py line 444: near_outer = sum(all_values > outer - ms90). -/
def nearOuter (sr : ℕ) (row : List ℤ) : ℕ :=
  (row.filter (fun v => decide ((pyMaxZ row : ℚ) - ms90 sr < (v : ℚ)))).length

/-- The peak matrix is held column-major: one list of sample indices per
lead, all columns of equal length (rows of the numpy matrix are read off
across the columns).  This matches the source, whose three mutations each
touch a single column. -/
def mlRow (cols : List (List ℤ)) (cur : ℕ) : List ℤ :=
  cols.map (fun c => c.getD cur 0)

/-- ecgtk.py line 453-454 (the near_inner > near_outer branch):
peaks[current+1:Npeaks, outerlead] = peaks[current:Npeaks-1, outerlead]
then peaks[current, outerlead] = median.  The column keeps its prefix,
receives the truncated median at the current row, and the slice
col[current:Npeaks-1] lands one row lower; the last value is lost. -/
def shiftDownCol (col : List ℤ) (cur : ℕ) (m : ℤ) : List ℤ :=
  col.take cur ++ m :: ((col.drop cur).take (col.length - 1 - cur))

/-- ecgtk.py lines 459-460 (the near_inner <= near_outer branch):
peaks[current:Npeaks-1, innerlead] = peaks[current+1:Npeaks, innerlead]
then peaks[-1, innerlead] = 0. -/
def shiftUpCol (col : List ℤ) (cur : ℕ) : List ℤ :=
  col.take cur ++ col.drop (cur + 1) ++ [0]

/-- One iteration of the multilead_peak_match while-loop body (ecgtk.py
lines 436-460): returns the updated matrix, the updated row cursor and
the consensus beats appended by this iteration. -/
def mlStep (sr : ℕ) (cols : List (List ℤ)) (cur : ℕ) :
    List (List ℤ) × ℕ × List ℤ :=
  let row := mlRow cols cur
  let Nleads := cols.length
  if nearInner sr row = Nleads ∧ nearOuter sr row = Nleads then
    (cols, cur + 1, [pyInt (medianQ row)])
  else if nearOuter sr row < nearInner sr row then
    let ol := argmaxZ row
    (cols.set ol (shiftDownCol (cols.getD ol []) cur (pyInt (medianQ row))), cur, [])
  else
    let il := argminZ row
    (cols.set il (shiftUpCol (cols.getD il []) cur), cur, [])

/-- ecgtk.py lines 435-462: the while-loop of multilead_peak_match.  The
source has no termination guard (the spec flags this as an open
question), so the embedding carries explicit fuel; none models a
non-terminating run. -/
def mlLoop (sr : ℕ) : ℕ → List (List ℤ) → ℕ → List ℤ → Option (List ℤ)
  | 0, _, _, _ => none
  | fuel + 1, cols, cur, acc =>
    if cur < (cols.getD 0 []).length then
      match mlStep sr cols cur with
      | (cols', cur', app) => mlLoop sr fuel cols' cur' (acc ++ app)
    else some acc

/-- ecgtk.py lines 425-462, QRSDetector.multilead_peak_match on a
column-major matrix. -/
def multilead_peak_match (sr : ℕ) (fuel : ℕ) (cols : List (List ℤ)) : Option (List ℤ) :=
  mlLoop sr fuel cols 0 []

/-- ecgtk.py lines 223-225, QRSDetector._zeropad: pad a detection list
with terminal zeros to the longest lead length. -/
def zeropad (l : List ℤ) (n : ℕ) : List ℤ := l ++ List.replicate (n - l.length) 0

/-! ### Time formatting (ecgtk.py lines 36-45 and 235-243) -/

/-- Zero padding of a numeral to a fixed width, as datetime.time
isoformat renders each field. -/
def padNum (w : ℕ) (n : ℕ) : String :=
  let s := toString n
  String.mk (List.replicate (w - s.length) '0') ++ s

/-- datetime.time(hr, minute, sec, usec).isoformat(): HH:MM:SS, with a
six-digit fractional part appended only when the microseconds are
nonzero. -/
def timeIsoformat (hr minute sec usec : ℕ) : String :=
  padNum 2 hr ++ ":" ++ padNum 2 minute ++ ":" ++ padNum 2 sec ++
    (if usec ≠ 0 then "." ++ padNum 6 usec else "")

/-- ecgtk.py lines 36-45, _format_time_wfdb: split ms into fields (hours
wrap at 24), build the isoformat string, then unconditionally drop the
last three characters to go from microseconds back to milliseconds. -/
def format_time_wfdb (ms : ℕ) : String :=
  (timeIsoformat (ms / 3600000 % 24) (ms / 60000 % 60) (ms / 1000 % 60)
      (ms % 1000 * 1000)).dropRight 3

/-- ecgtk.py lines 235-243, QRSDetector._sample_to_time: convert the
sample index to truncated milliseconds, then format exactly as
_format_time_wfdb does (the source inlines the identical field splitting
and isoformat call). -/
def sample_to_time (sr : ℕ) (sample : ℕ) : String :=
  format_time_wfdb (sample * 1000 / sr)

/-! ### Interval conversions (ecgtk.py lines 17-34) -/

/-- ecgtk.py lines 17-24, _ms_to_samples(ms, samplingrate) =
int(samplingrate * ms / 1000); true division under
from __future__ import division, then int() truncation. -/
def ms_to_samples (ms samplingrate : ℚ) : ℤ := pyInt (samplingrate * ms / 1000)

/-- ecgtk.py lines 26-34, _samples_to_ms(samples, samplingrate) =
int(samples * 1000 / samplingrate). -/
def samples_to_ms (samples samplingrate : ℚ) : ℤ := pyInt (samples * 1000 / samplingrate)

/-! ### Zero-phase filter (ecgtk.py lines 47-103) -/

/-- Python extended slicing x[start:stop:1] with clamping of possibly
negative bounds. -/
def pySlicePos (xs : List ℚ) (start stop : ℤ) : List ℚ :=
  let n : ℤ := xs.length
  let st := if start < 0 then max (start + n) 0 else min start n
  let sp := if stop < 0 then max (stop + n) 0 else min stop n
  (xs.drop st.toNat).take (sp - st).toNat

/-- Python extended slicing x[start:stop:-1]: elements at indices start,
start-1, ..., stop+1, with CPython clamping of the bounds. -/
def pySliceRev (xs : List ℚ) (start stop : ℤ) : List ℚ :=
  let n : ℤ := xs.length
  let st := if start < 0 then max (start + n) (-1) else min start (n - 1)
  let sp := if stop < 0 then max (stop + n) (-1) else min stop (n - 1)
  (List.range (st - sp).toNat).map (fun k => xs.getD (st - k).toNat 0)

/-- One step of the direct-form-II-transposed difference equation of
scipy.signal.lfilter: output sample and updated internal state. -/
def lfilterStep (bn an : List ℚ) (x : ℚ) (z : List ℚ) : ℚ × List ℚ :=
  let y := bn.headD 0 * x + z.headD 0
  (y, (List.range z.length).map
        (fun i => bn.getD (i + 1) 0 * x + z.getD (i + 1) 0 - an.getD (i + 1) 0 * y))

/-- scipy.signal.lfilter(b, a, x, -1, zi): the coefficients are
normalized by a[0] and the difference equation is folded over the
signal; only the filtered signal is kept (the final state zf of the
source is unused by filtfilt). -/
def lfilter (b a xs zi : List ℚ) : List ℚ :=
  let a0 := a.headD 0
  let bn := b.map (· / a0)
  let an := a.map (· / a0)
  (xs.foldl (fun acc x =>
      let st := lfilterStep bn an x acc.2
      (acc.1 ++ [st.1], st.2)) (([] : List ℚ), zi)).1

/-- Extract the first row with a nonzero leading coefficient (the pivot)
from a system, keeping the remaining rows in order. -/
def extractPivot : List (List ℚ) → Option (List ℚ × List (List ℚ))
  | [] => none
  | r :: rs =>
    if r.headD 0 ≠ 0 then some (r, rs)
    else
      match extractPivot rs with
      | none => none
      | some (p, rest) => some (p, r :: rest)

/-- Gaussian elimination on an augmented system, fueled by the row
count; none exactly when the matrix is singular, modelling the
LinAlgError raised by scipy.linalg.inv. -/
def gaussAux : ℕ → List (List ℚ) → Option (List ℚ)
  | _, [] => some []
  | 0, _ :: _ => none
  | fuel + 1, rows =>
    match extractPivot rows with
    | none => none
    | some (r, rest) =>
      let p := r.headD 0
      let r' := r.tail.map (· / p)
      let rest' := rest.map (fun s => (s.tail).zipWith (fun si ci => si - s.headD 0 * ci) r')
      match gaussAux fuel rest' with
      | none => none
      | some zs =>
        some ((r'.getLastD 0 - (List.zipWith (· * ·) r'.dropLast zs).sum) :: zs)

/-- Solve a square augmented linear system over the rationals. -/
def gaussSolve (rows : List (List ℚ)) : Option (List ℚ) := gaussAux rows.length rows

/-- ecgtk.py lines 54-55: the (n-1) x (n-1) matrix
zin = eye(n-1) - hstack((-a[1:n, newaxis], vstack((eye(n-2), zeros(n-2))))). -/
def ziMat (a : List ℚ) (n : ℕ) : List (List ℚ) :=
  (List.range (n - 1)).map (fun i =>
    (List.range (n - 1)).map (fun j =>
      (if i = j then (1 : ℚ) else 0) -
        (if j = 0 then -(a.getD (i + 1) 0)
         else if i + 1 = j ∧ i < n - 2 then 1 else 0)))

/-- ecgtk.py line 56: zid = b[1:n] - a[1:n] * b[0]. -/
def ziVec (b a : List ℚ) (n : ℕ) : List ℚ :=
  (List.range (n - 1)).map (fun i => b.getD (i + 1) 0 - a.getD (i + 1) 0 * b.getD 0 0)

/-- ecgtk.py lines 47-63, _lfilter_zi: solve zin * zi = zid; none when
the system is singular (scipy.linalg.inv would raise LinAlgError). -/
def lfilter_zi (b a : List ℚ) : Option (List ℚ) :=
  let n := max a.length b.length
  gaussSolve (List.zipWith (fun row d => row ++ [d]) (ziMat a n) (ziVec b a n))

/-- ecgtk.py line 86: pad a with trailing zeros when it is shorter. -/
def padA (b a : List ℚ) : List ℚ :=
  if a.length < max a.length b.length then a ++ List.replicate (b.length - a.length) 0 else a

/-- ecgtk.py line 89: pad b with trailing zeros when it is shorter. -/
def padB (b a : List ℚ) : List ℚ :=
  if b.length < max a.length b.length then b ++ List.replicate (a.length - b.length) 0 else b

/-- A numpy array as filtfilt sees it: a dimension count plus the
flattened samples. -/
structure PyArr where
  ndim : ℕ
  data : List ℚ
deriving Repr, DecidableEq

/-- ecgtk.py lines 65-103, filtfilt: the two ValueError guards, the
coefficient padding, the initial state computation, the edge-mirrored
extension s, the forward pass, the reversed second pass and the final
trim.  Errors are the two source raises plus the LinAlgError propagated
out of _lfilter_zi. -/
def filtfilt (b a : List ℚ) (x : PyArr) : Except String (List ℚ) :=
  let ntaps := max a.length b.length
  let edge := ntaps * 3
  if x.ndim ≠ 1 then
    Except.error "Filtfilt is only accepting 1 dimension arrays."
  else if x.data.length < edge then
    Except.error "Input vector needs to be bigger than 3 * max(len(a),len(b)."
  else
    let a' := padA b a
    let b' := padB b a
    match lfilter_zi b' a' with
    | none => Except.error "singular matrix"
    | some zi =>
      let xs := x.data
      let x0 := xs.headD 0
      let xl := xs.getLastD 0
      let s := (pySliceRev xs edge 1).map (fun v => 2 * x0 - v) ++ xs ++
               (pySliceRev xs (-1) (-(edge : ℤ))).map (fun v => 2 * xl - v)
      let y1 := lfilter b' a' s (zi.map (· * s.headD 0))
      let y2 := lfilter b' a' y1.reverse (zi.map (· * y1.getLastD 0))
      Except.ok (pySlicePos y2 ((edge : ℤ) - 1) (-(edge : ℤ) + 1)).reverse

/-- Whether a filtfilt run raised. -/
def isError : Except String (List ℚ) → Bool
  | Except.error _ => true
  | Except.ok _ => false

/-! ### Concrete signals used by the closed theorems -/

/-- Eight seconds at 10 samples/s: spikes of amplitude 16, 8, 4 at indices
1, 4, 7 (all inside the first one-second window). -/
def ecgA : List ℚ :=
  ((((List.replicate 80 (0 : ℚ)).set 1 16).set 4 8).set 7 4)

/-- Eight seconds at 50 samples/s: spikes of amplitude 16, 8, 4 at indices
1, 20, 35. -/
def ecgB : List ℚ :=
  ((((List.replicate 400 (0 : ℚ)).set 1 16).set 20 8).set 35 4)

/-- Nine seconds of flat zero signal at 10 samples/s. -/
def flatEcg : List ℚ := List.replicate 90 (0 : ℚ)

/-- A signal whose strict local maxima are exactly two peaks 15 samples
apart (150 ms at 100 samples/s), the second one larger. -/
def ecgTwo : List ℚ := (((List.replicate 30 (0 : ℚ)).set 10 1).set 25 2)

/-! ## Theorems -/

/-- C1: the claim says every buffer update recomputes the threshold.  In
the source only _initializeBuffers calls _updateThreshold; acceptasQRS
and acceptasNoise rotate the buffers and leave the threshold alone, so
after a run in which the signal-buffer mean moved from 2 to 3 the stored
threshold is still the seeded 5/8 while the claimed formula on the
current buffers gives 15/16.  This contradicts the checkPeaks docstring
(thresholds that are constantly updated). -/
theorem c1_threshold_never_recomputed :
    (checkPeaks 10 ecgA ((peakDetect 10 ecgA).getD []) (seedBuffers 10 ecgA)).threshold
      = 5 / 8 ∧
    (updateThreshold
        (checkPeaks 10 ecgA ((peakDetect 10 ecgA).getD []) (seedBuffers 10 ecgA))).threshold
      = 15 / 16 ∧
    (5 : ℚ) / 8 ≠ 15 / 16 := by with_unfolding_all decide

/-- C3: whenever the integrated signal has no strict local maximum,
peakDetect reads peak_indices[0] from the empty candidate list and
raises IndexError (modelled as none) instead of returning an empty beat
sequence. -/
theorem c3_peakDetect_raises_without_maxima (sr : ℕ) (ecg : List ℚ)
    (h : localMaxIndices ecg = []) : peakDetect sr ecg = none := by
  simp [peakDetect, h]

/-- Witness for C3: a flat zero-amplitude 9-second signal has no strict
local maximum and makes peakDetect fail. -/
theorem c3_peakDetect_raises_witness :
    localMaxIndices flatEcg = [] ∧ peakDetect 10 flatEcg = none :=
  ⟨by decide, c3_peakDetect_raises_without_maxima 10 flatEcg (by decide)⟩

/-- Counterexample to C4: a signal whose strict local maxima are exactly
two peaks 150 ms apart (below the 200 ms refractory distance) makes
peakDetect return the empty list, not the single larger peak: the larger
peak only ever becomes the pending candidate and the scan ends before
anything commits it. -/
theorem c4_counterexample :
    localMaxIndices ecgTwo = [10, 25] ∧
    ((25 : ℚ) - 10 = (0.15 : ℚ) * 100) ∧
    ((25 : ℚ) - 10 ≤ minimumRR 100) ∧
    ecgTwo.getD 10 0 < ecgTwo.getD 25 0 ∧
    peakDetect 100 ecgTwo = some [] ∧
    ([] : List ℕ) ≠ [25] := by with_unfolding_all decide

/-- C7: the claim says every sample index formats as HH:MM:SS.mmm with
the fractional part always present.  When the truncated millisecond
count is a multiple of 1000 the microsecond field is 0, isoformat omits
the fraction, and the unconditional [:-3] then chops the seconds field:
sample 1000 at 1000 Hz renders as 00:00 instead of 00:00:01.000,
contradicting the documented (hh):mm:ss.sss contract. -/
theorem c7_sample_to_time_truncates :
    sample_to_time 1000 1000 = "00:00" ∧ "00:00" ≠ "00:00:01.000" := by with_unfolding_all decide

/-- C10: delay compensation subtracts 40 * (samplingrate / 1000) with no
clamping, so a recording whose first accepted beat lies 20 ms (1 sample
at 50 Hz, which is within the first 40 ms) into the signal comes back
with the negative index -1. -/
theorem c10_negative_index :
    qrs_detect_post 50 ecgB = some [-1, 18] ∧
    acceptedQRS 50 ecgB ((peakDetect 50 ecgB).getD []) = [1, 20] ∧
    ((1 : ℚ) * 1000 / 50 < 40) ∧
    (-1 : ℤ) < 0 := by with_unfolding_all decide

/-- Counterexample to C2: three leads whose per-lead detections satisfy
the single-lead invariant ([1000, 2000], [1000], [1000], gaps above the
200 ms refractory distance at 1000 Hz), zero-padded as the source does;
the reconciler terminates and returns [1000, 0], which is not strictly
increasing. -/
theorem c2_counterexample_multilead :
    multilead_peak_match 1000 10
        [zeropad [1000, 2000] 2, zeropad [1000] 2, zeropad [1000] 2] = some [1000, 0] ∧
    List.Chain' (fun p q : ℤ => minimumRR 1000 < ((q - p : ℤ) : ℚ)) [1000, 2000] ∧
    ¬ List.Chain' (· < ·) ([1000, 0] : List ℤ) := by
  refine ⟨by with_unfolding_all decide, ?_, ?_⟩
  · simp only [List.chain'_cons, List.chain'_singleton, and_true]
    with_unfolding_all decide
  · simp only [List.chain'_cons, List.chain'_singleton, and_true]
    with_unfolding_all decide

/-- Counterexample to C5: in the near_inner > near_outer branch the
claim says the outer-lead column drops the value at this row and pulls the
later rows up, which would put the old row-1 value 9999 at row 0.  The
source instead writes the row median 1000 at row 0 and pushes the old
value 1090 down to row 1. -/
theorem c5_counterexample_outer_shift :
    mlStep 1000 [[1000, 9999], [1000, 9999], [1090, 9999]] 0 =
      ([[1000, 9999], [1000, 9999], [1000, 1090]], 0, []) ∧
    argmaxZ (mlRow [[1000, 9999], [1000, 9999], [1090, 9999]] 0) = 2 ∧
    (([[1000, 9999], [1000, 9999], [1090, 9999]] : List (List ℤ)).getD 2 []).getD 1 0
      = 9999 ∧
    ((mlStep 1000 [[1000, 9999], [1000, 9999], [1090, 9999]] 0).1.getD 2 []).getD 0 0
      = 1000 ∧
    (1000 : ℤ) ≠ 9999 := by with_unfolding_all decide

/-- C4 amended: when the strict local maxima are exactly two peaks at
most the refractory distance apart, the second peak at most replaces the
pending candidate; nothing is ever committed to unique_peaks and the
extractor returns the empty list. -/
theorem c4_two_close_maxima_empty (sr : ℕ) (ecg : List ℚ) (i j : ℕ)
    (h : localMaxIndices ecg = [i, j]) (hgap : (j : ℚ) - (i : ℚ) ≤ minimumRR sr) :
    peakDetect sr ecg = some [] := by
  have h0 : (0 : ℚ) ≤ minimumRR sr := by
    unfold minimumRR
    positivity
  have e1 : ¬ (((i : ℚ) - (i : ℚ) ≤ minimumRR sr) ∧ ecg.getD i 0 < ecg.getD i 0) :=
    fun hc => lt_irrefl _ hc.2
  have e2 : ¬ (minimumRR sr < (i : ℚ) - (i : ℚ)) := by
    rw [sub_self]
    exact not_lt.mpr h0
  simp only [peakDetect, h, List.map_cons, List.map_nil, List.zip_cons_cons,
    List.zip_nil_right, Option.some.injEq]
  rw [peakLoop, if_neg e1, if_neg e2, peakLoop]
  by_cases hamp : ecg.getD i 0 < ecg.getD j 0
  · rw [if_pos ⟨hgap, hamp⟩, peakLoop]
  · rw [if_neg (fun hc => hamp hc.2), if_neg (not_lt.mpr hgap), peakLoop]

/-- Witness for the amended C4 at the two-peak signal of the
counterexample. -/
theorem c4_two_close_maxima_empty_witness : peakDetect 100 ecgTwo = some [] :=
  c4_two_close_maxima_empty 100 ecgTwo 10 25 (by with_unfolding_all decide)
    (by with_unfolding_all decide)

/-- Every peak the scan loop emits was committed by a later local
maximum lying strictly more than minimumRR away.  (Helper for C9.) -/
theorem peakLoop_emitted_has_later (minRR : ℚ) :
    ∀ (pend : List (ℕ × ℚ)) (cand : ℕ) (candAmp : ℚ) (acc : List ℕ) (p : ℕ),
      p ∈ peakLoop minRR pend cand candAmp acc →
      p ∈ acc ∨ ∃ q ∈ pend.map Prod.fst, minRR < (q : ℚ) - (p : ℚ) := by
  intro pend
  induction pend with
  | nil =>
    intro cand candAmp acc p hp
    rw [peakLoop] at hp
    exact Or.inl hp
  | cons hd tl ih =>
    obtain ⟨i, amp⟩ := hd
    intro cand candAmp acc p hp
    rw [peakLoop] at hp
    by_cases h1 : ((i : ℚ) - (cand : ℚ) ≤ minRR) ∧ candAmp < amp
    · rw [if_pos h1] at hp
      rcases ih _ _ _ _ hp with h | ⟨q, hq, hgt⟩
      · exact Or.inl h
      · exact Or.inr ⟨q, by simp only [List.map_cons, List.mem_cons]; exact Or.inr hq, hgt⟩
    · rw [if_neg h1] at hp
      by_cases h2 : minRR < (i : ℚ) - (cand : ℚ)
      · rw [if_pos h2] at hp
        rcases ih _ _ _ _ hp with h | ⟨q, hq, hgt⟩
        · rcases List.mem_append.mp h with h | h
          · exact Or.inl h
          · have hpc : p = cand := by simpa using h
            subst hpc
            exact Or.inr ⟨i, by simp, h2⟩
        · exact Or.inr ⟨q, by simp only [List.map_cons, List.mem_cons]; exact Or.inr hq, hgt⟩
      · rw [if_neg h2] at hp
        rcases ih _ _ _ _ hp with h | ⟨q, hq, hgt⟩
        · exact Or.inl h
        · exact Or.inr ⟨q, by simp only [List.map_cons, List.mem_cons]; exact Or.inr hq, hgt⟩

/-- Everything the scan loop returns is either carried in from the
accumulator, the current candidate, or one of the scanned peaks.
(Helper for C2 and C9.) -/
theorem peakLoop_mem (minRR : ℚ) :
    ∀ (pend : List (ℕ × ℚ)) (cand : ℕ) (candAmp : ℚ) (acc : List ℕ) (p : ℕ),
      p ∈ peakLoop minRR pend cand candAmp acc →
      p ∈ acc ∨ p = cand ∨ p ∈ pend.map Prod.fst := by
  intro pend
  induction pend with
  | nil =>
    intro cand candAmp acc p hp
    rw [peakLoop] at hp
    exact Or.inl hp
  | cons hd tl ih =>
    obtain ⟨i, amp⟩ := hd
    intro cand candAmp acc p hp
    rw [peakLoop] at hp
    by_cases h1 : ((i : ℚ) - (cand : ℚ) ≤ minRR) ∧ candAmp < amp
    · rw [if_pos h1] at hp
      rcases ih _ _ _ _ hp with h | h | h
      · exact Or.inl h
      · exact Or.inr (Or.inr (by simp [h]))
      · exact Or.inr (Or.inr (by simp only [List.map_cons, List.mem_cons]; exact Or.inr h))
    · rw [if_neg h1] at hp
      by_cases h2 : minRR < (i : ℚ) - (cand : ℚ)
      · rw [if_pos h2] at hp
        rcases ih _ _ _ _ hp with h | h | h
        · rcases List.mem_append.mp h with h | h
          · exact Or.inl h
          · exact Or.inr (Or.inl (by simpa using h))
        · exact Or.inr (Or.inr (by simp [h]))
        · exact Or.inr (Or.inr (by simp only [List.map_cons, List.mem_cons]; exact Or.inr h))
      · rw [if_neg h2] at hp
        rcases ih _ _ _ _ hp with h | h | h
        · exact Or.inl h
        · exact Or.inr (Or.inl h)
        · exact Or.inr (Or.inr (by simp only [List.map_cons, List.mem_cons]; exact Or.inr h))

/-- The local maxima are listed in strictly increasing index order. -/
theorem localMaxIndices_sorted (ecg : List ℚ) :
    List.Pairwise (· < ·) (localMaxIndices ecg) :=
  List.Pairwise.filter _ (List.pairwise_lt_range' 1 (ecg.length - 2))

/-- Every local maximum index is at least 1 (the scan starts at
range(1, ...)). -/
theorem localMaxIndices_one_le (ecg : List ℚ) (p : ℕ)
    (hp : p ∈ localMaxIndices ecg) : 1 ≤ p := by
  unfold localMaxIndices at hp
  exact (List.mem_range'_1.mp (List.mem_of_mem_filter hp)).1

/-- In a strictly sorted list the head is a lower bound. -/
theorem sorted_head_le {l : List ℕ} {x p : ℕ}
    (hpw : List.Pairwise (· < ·) (x :: l)) (hp : p ∈ x :: l) : x ≤ p := by
  rcases List.mem_cons.mp hp with rfl | hp'
  · exact le_rfl
  · exact le_of_lt ((List.pairwise_cons.mp hpw).1 p hp')

/-- In a strictly sorted list the last element is an upper bound. -/
theorem sorted_le_getLast :
    ∀ (l : List ℕ), List.Pairwise (· < ·) l →
      ∀ z, l.getLast? = some z → ∀ q ∈ l, q ≤ z := by
  intro l
  induction l with
  | nil =>
    intro _ z hz
    simp at hz
  | cons x tl ih =>
    intro hpw z hz q hq
    cases tl with
    | nil =>
      simp only [List.getLast?_singleton, Option.some.injEq] at hz
      simp only [List.mem_singleton] at hq
      subst hz
      subst hq
      exact le_rfl
    | cons y tl' =>
      rw [List.getLast?_cons_cons] at hz
      rcases List.mem_cons.mp hq with rfl | hq'
      · have hz' : z ∈ y :: tl' := List.mem_of_getLast?_eq_some hz
        exact le_of_lt ((List.pairwise_cons.mp hpw).1 z hz')
      · exact ih (List.pairwise_cons.mp hpw).2 z hz q hq'

/-- C9: the peak extractor never emits the candidate pending at the end
of the scan: every returned index is followed by a later strict local
maximum strictly more than the refractory distance away; if all maxima
lie within the refractory distance of the first, the result is empty;
the last local maximum of the recording is never returned. -/
theorem c9_pending_candidate_never_emitted (sr : ℕ) (ecg : List ℚ) (out : List ℕ)
    (h : peakDetect sr ecg = some out) :
    (∀ p ∈ out, ∃ q ∈ localMaxIndices ecg,
        p < q ∧ minimumRR sr < (q : ℚ) - (p : ℚ)) ∧
    ((∀ m ∈ localMaxIndices ecg,
        (m : ℚ) - (((localMaxIndices ecg).headD 0 : ℕ) : ℚ) ≤ minimumRR sr) →
      out = []) ∧
    (∀ z, (localMaxIndices ecg).getLast? = some z → z ∉ out) := by
  have h0 : (0 : ℚ) ≤ minimumRR sr := by
    unfold minimumRR
    positivity
  rcases hidxs : localMaxIndices ecg with _ | ⟨i0, tl⟩
  · rw [peakDetect, hidxs] at h
    simp at h
  · rw [peakDetect, hidxs] at h
    simp only [Option.some.injEq] at h
    have hlen : (i0 :: tl).length ≤ ((i0 :: tl).map (fun i => ecg.getD i 0)).length := by
      simp
    have hfst : ((i0 :: tl).zip ((i0 :: tl).map (fun i => ecg.getD i 0))).map Prod.fst
        = i0 :: tl := List.map_fst_zip _ _ hlen
    have hsorted : List.Pairwise (· < ·) (i0 :: tl) := by
      rw [← hidxs]
      exact localMaxIndices_sorted ecg
    have hA : ∀ p ∈ out, ∃ q ∈ i0 :: tl,
        p < q ∧ minimumRR sr < (q : ℚ) - (p : ℚ) := by
      intro p hp
      rw [← h] at hp
      rcases peakLoop_emitted_has_later _ _ _ _ _ _ hp with hfalse | ⟨q, hq, hgt⟩
      · simp at hfalse
      · rw [hfst] at hq
        refine ⟨q, hq, ?_, hgt⟩
        have : (p : ℚ) < (q : ℚ) := by linarith
        exact_mod_cast this
    refine ⟨hA, ?_, ?_⟩
    · intro hb
      by_contra hne
      obtain ⟨p, hp⟩ := List.exists_mem_of_ne_nil out hne
      obtain ⟨q, hq, _, hgt⟩ := hA p hp
      have hpmem : p ∈ (i0 :: tl) := by
        rw [← h] at hp
        rcases peakLoop_mem _ _ _ _ _ _ hp with hfalse | rfl | hmem
        · simp at hfalse
        · exact List.mem_cons_self _ _
        · rw [hfst] at hmem
          exact hmem
      have hple : i0 ≤ p := sorted_head_le hsorted hpmem
      have hqle : (q : ℚ) - (((i0 :: tl).headD 0 : ℕ) : ℚ) ≤ minimumRR sr := hb q hq
      simp only [List.headD_cons] at hqle
      have hcast : ((i0 : ℕ) : ℚ) ≤ (p : ℚ) := by exact_mod_cast hple
      linarith
    · intro z hz hzmem
      obtain ⟨q, hq, hlt, _⟩ := hA z hzmem
      have : q ≤ z := sorted_le_getLast _ hsorted z hz q hq
      omega

/-- Witness for C9 at a concrete 8-second signal: maxima at 1, 4, 7 with
a 2-sample refractory distance; the extractor returns [1, 4] and indeed
drops the final maximum 7. -/
theorem c9_pending_candidate_never_emitted_witness :
    (∀ p ∈ [1, 4], ∃ q ∈ localMaxIndices ecgA,
        p < q ∧ minimumRR 10 < (q : ℚ) - (p : ℚ)) ∧
    ((∀ m ∈ localMaxIndices ecgA,
        (m : ℚ) - (((localMaxIndices ecgA).headD 0 : ℕ) : ℚ) ≤ minimumRR 10) →
      [1, 4] = ([] : List ℕ)) ∧
    (∀ z, (localMaxIndices ecgA).getLast? = some z → z ∉ [1, 4]) :=
  c9_pending_candidate_never_emitted 10 ecgA [1, 4] (by with_unfolding_all decide)

/-- pyInt never exceeds the ceiling. -/
theorem pyInt_le_ceil (q : ℚ) : pyInt q ≤ ⌈q⌉ := by
  unfold pyInt
  split
  · exact Int.floor_le_ceil q
  · exact le_rfl

/-- pyInt is at most one below the ceiling. -/
theorem ceil_sub_one_le_pyInt (q : ℚ) : ⌈q⌉ - 1 ≤ pyInt q := by
  unfold pyInt
  split
  · have := Int.ceil_le_floor_add_one q
    omega
  · omega

/-- The scan loop preserves the refractory-gap chain on the committed
peaks.  (Helper for C2.) -/
theorem peakLoop_chain (minRR : ℚ) (_h0 : 0 ≤ minRR) :
    ∀ (pend : List (ℕ × ℚ)) (cand : ℕ) (candAmp : ℚ) (acc : List ℕ),
      List.Chain' (fun a b : ℕ => minRR < (b : ℚ) - (a : ℚ)) (acc ++ [cand]) →
      (∀ pr ∈ pend, cand ≤ pr.1) →
      List.Pairwise (fun pr qr : ℕ × ℚ => pr.1 < qr.1) pend →
      List.Chain' (fun a b : ℕ => minRR < (b : ℚ) - (a : ℚ))
        (peakLoop minRR pend cand candAmp acc) := by
  intro pend
  induction pend with
  | nil =>
    intro cand candAmp acc hch _ _
    rw [peakLoop]
    exact (List.chain'_append.mp hch).1
  | cons hd tl ih =>
    obtain ⟨i, amp⟩ := hd
    intro cand candAmp acc hch hle hpw
    rw [peakLoop]
    have hile : cand ≤ i := hle (i, amp) (List.mem_cons_self _ _)
    have htl_le : ∀ qr ∈ tl, i ≤ qr.1 :=
      fun qr hqr => le_of_lt ((List.pairwise_cons.mp hpw).1 qr hqr)
    have hpw' := (List.pairwise_cons.mp hpw).2
    by_cases h1 : ((i : ℚ) - (cand : ℚ) ≤ minRR) ∧ candAmp < amp
    · rw [if_pos h1]
      apply ih i amp acc _ htl_le hpw'
      rw [List.chain'_append] at hch ⊢
      refine ⟨hch.1, List.chain'_singleton _, ?_⟩
      intro x hx y hy
      simp only [List.head?_cons, Option.mem_def, Option.some.injEq] at hy
      subst hy
      have hrel := hch.2.2 x hx cand (by simp)
      have hcast : (cand : ℚ) ≤ (i : ℚ) := by exact_mod_cast hile
      linarith
    · rw [if_neg h1]
      by_cases h2 : minRR < (i : ℚ) - (cand : ℚ)
      · rw [if_pos h2]
        apply ih i amp (acc ++ [cand]) _ htl_le hpw'
        rw [List.chain'_append]
        refine ⟨hch, List.chain'_singleton _, ?_⟩
        intro x hx y hy
        simp only [List.head?_cons, Option.mem_def, Option.some.injEq] at hy
        subst hy
        rw [List.getLast?_concat] at hx
        simp only [Option.mem_def, Option.some.injEq] at hx
        subst hx
        exact h2
      · rw [if_neg h2]
        exact ih cand candAmp acc hch (fun qr hqr => le_trans hile (htl_le qr hqr)) hpw'

/-- Zipping a list with its own image lists the graph pairs.  (Helper
for C2.) -/
theorem zip_self_map (f : ℕ → ℚ) :
    ∀ l : List ℕ, l.zip (l.map f) = l.map (fun i => (i, f i))
  | [] => rfl
  | x :: xs => by
    simp only [List.map_cons, List.zip_cons_cons, zip_self_map f xs]

/-- peakDetect commits peaks in increasing order with strict refractory
gaps, and only ever emits local maxima.  (Helper for C2.) -/
theorem peakDetect_chain (sr : ℕ) (ecg : List ℚ) (pks : List ℕ)
    (h : peakDetect sr ecg = some pks) :
    List.Chain' (fun a b : ℕ => minimumRR sr < (b : ℚ) - (a : ℚ)) pks ∧
    ∀ p ∈ pks, p ∈ localMaxIndices ecg := by
  have h0 : (0 : ℚ) ≤ minimumRR sr := by
    unfold minimumRR
    positivity
  rcases hidxs : localMaxIndices ecg with _ | ⟨i0, tl⟩
  · rw [peakDetect, hidxs] at h
    simp at h
  · rw [peakDetect, hidxs] at h
    simp only [Option.some.injEq] at h
    have hsorted : List.Pairwise (· < ·) (i0 :: tl) := by
      rw [← hidxs]
      exact localMaxIndices_sorted ecg
    have hlen : (i0 :: tl).length ≤ ((i0 :: tl).map (fun i => ecg.getD i 0)).length := by
      simp
    have hfst : ((i0 :: tl).zip ((i0 :: tl).map (fun i => ecg.getD i 0))).map Prod.fst
        = i0 :: tl := List.map_fst_zip _ _ hlen
    have hzip : (i0 :: tl).zip ((i0 :: tl).map (fun i => ecg.getD i 0))
        = (i0 :: tl).map (fun i => (i, ecg.getD i 0)) :=
      zip_self_map (fun i => ecg.getD i 0) (i0 :: tl)
    constructor
    · rw [← h]
      apply peakLoop_chain _ h0
      · exact List.chain'_singleton i0
      · intro pr hpr
        have hmem : pr.1 ∈ i0 :: tl := by
          rw [← hfst]
          exact List.mem_map_of_mem Prod.fst hpr
        exact sorted_head_le hsorted hmem
      · rw [hzip]
        exact List.pairwise_map.mpr (hsorted.imp (fun hab => hab))
    · intro p hp
      rw [← h] at hp
      rcases peakLoop_mem _ _ _ _ _ _ hp with hfalse | rfl | hmem
      · simp at hfalse
      · exact List.mem_cons_self _ _
      · rw [← hfst]
        exact hmem

/-- A classification step either leaves QRSpeaks alone (noise) or
appends exactly the classified peak (heartbeat).  (Helper for C2.) -/
theorem checkStep_QRSpeaks (sr : ℕ) (ecg : List ℚ) (st : ClassState) (pk : ℕ × ℕ) :
    (checkStep sr ecg st pk).QRSpeaks = st.QRSpeaks ∨
    (checkStep sr ecg st pk).QRSpeaks = st.QRSpeaks ++ [(pk.1 : ℤ)] := by
  simp only [checkStep, acceptasQRS, acceptasNoise]
  repeat' split
  all_goals first
  | (left; rfl)
  | (right; rfl)

/-- The classification fold appends a sublist of the classified peak
indices to QRSpeaks.  (Helper for C2.) -/
theorem checkFold_sublist (sr : ℕ) (ecg : List ℚ) :
    ∀ (pairs : List (ℕ × ℕ)) (st : ClassState),
      ∃ ex, (pairs.foldl (checkStep sr ecg) st).QRSpeaks = st.QRSpeaks ++ ex ∧
        List.Sublist ex (pairs.map (fun pk => (pk.1 : ℤ))) := by
  intro pairs
  induction pairs with
  | nil =>
    intro st
    exact ⟨[], by simp, by simp⟩
  | cons pk tl ih =>
    intro st
    rw [List.foldl_cons]
    obtain ⟨ex, hex, hsub⟩ := ih (checkStep sr ecg st pk)
    rcases checkStep_QRSpeaks sr ecg st pk with hq | hq
    · refine ⟨ex, ?_, ?_⟩
      · rw [hex, hq]
      · simp only [List.map_cons]
        exact hsub.cons _
    · refine ⟨(pk.1 : ℤ) :: ex, ?_, ?_⟩
      · rw [hex, hq, List.append_assoc]
        rfl
      · simp only [List.map_cons]
        exact hsub.cons₂ _

/-- The accepted heartbeat list is a sublist of the extracted peak list.
(Helper for C2.) -/
theorem acceptedQRS_sublist (sr : ℕ) (ecg : List ℚ) (pks : List ℕ) :
    List.Sublist (acceptedQRS sr ecg pks) (pks.map (fun p : ℕ => (p : ℤ))) := by
  unfold acceptedQRS checkPeaks
  obtain ⟨ex, hex, hsub⟩ := checkFold_sublist sr ecg
    (pks.zip ((pks ++ [ecg.length - 1]).drop 1))
    { seedBuffers sr ecg with QRSpeaks := [0] }
  rw [hex]
  simp only [List.drop_succ_cons, List.drop_zero]
  have hlen : pks.length ≤ ((pks ++ [ecg.length - 1]).drop 1).length := by
    simp
  have hmap : (pks.zip ((pks ++ [ecg.length - 1]).drop 1)).map (fun pk => (pk.1 : ℤ))
      = pks.map (fun p : ℕ => (p : ℤ)) := by
    have : (fun pk : ℕ × ℕ => (pk.1 : ℤ)) = (fun p : ℕ => (p : ℤ)) ∘ Prod.fst := rfl
    rw [this, ← List.map_map, List.map_fst_zip _ _ hlen]
  rw [← hmap]
  exact hsub

/-- The arithmetic of the delay compensation: a refractory gap survives
truncation up to one sample, exactly when the smaller peak sits before
the 40 ms mark; strict order always survives.  (Helper for C2.) -/
theorem delayComp_lt (sr : ℕ) (a b : ℤ) (ha : 1 ≤ a)
    (hg : minimumRR sr < ((b - a : ℤ) : ℚ)) :
    delayComp sr a < delayComp sr b ∧
    minimumRR sr - 1 < ((delayComp sr b - delayComp sr a : ℤ) : ℚ) ∧
    (40 * ((sr : ℚ) / 1000) ≤ (a : ℚ) →
      minimumRR sr < ((delayComp sr b - delayComp sr a : ℤ) : ℚ)) := by
  have h0 : (0 : ℚ) ≤ minimumRR sr := by
    unfold minimumRR
    positivity
  have hcastdiff : ((b - a : ℤ) : ℚ) = (b : ℚ) - (a : ℚ) := by
    push_cast
    ring
  have hgq : minimumRR sr < (b : ℚ) - (a : ℚ) := by
    rw [hcastdiff] at hg
    exact hg
  set d : ℚ := 40 * ((sr : ℚ) / 1000) with hd
  have hab : a < b := by
    exact_mod_cast (by linarith : (a : ℚ) < (b : ℚ))
  have hBval : (b : ℚ) - d = ((a : ℚ) - d) + ((b - a : ℤ) : ℚ) := by
    push_cast
    ring
  have hexact : d ≤ (a : ℚ) → delayComp sr b - delayComp sr a = b - a := by
    intro hda
    have h1 : (0 : ℚ) ≤ (a : ℚ) - d := by linarith
    have h2 : (0 : ℚ) ≤ (b : ℚ) - d := by
      have : (a : ℚ) ≤ (b : ℚ) := by exact_mod_cast le_of_lt hab
      linarith
    unfold delayComp pyInt
    rw [← hd, if_pos h2, if_pos h1, hBval, Int.floor_add_int]
    ring
  have hlower : delayComp sr a + (b - a) - 1 ≤ delayComp sr b := by
    have hle1 : delayComp sr a ≤ ⌈(a : ℚ) - d⌉ := by
      unfold delayComp
      rw [← hd]
      exact pyInt_le_ceil _
    have hle2 : ⌈(b : ℚ) - d⌉ - 1 ≤ delayComp sr b := by
      unfold delayComp
      rw [← hd]
      exact ceil_sub_one_le_pyInt _
    have hceq : ⌈(b : ℚ) - d⌉ = ⌈(a : ℚ) - d⌉ + (b - a) := by
      rw [hBval, Int.ceil_add_int]
    omega
  refine ⟨?_, ?_, ?_⟩
  · by_cases hda : d ≤ (a : ℚ)
    · have := hexact hda
      omega
    · push_neg at hda
      have ha1 : (1 : ℚ) ≤ (a : ℚ) := by exact_mod_cast ha
      have hd1 : (1 : ℚ) < d := lt_of_le_of_lt ha1 hda
      have hdsr : d = (sr : ℚ) / 25 := by
        rw [hd]
        ring
      have hsr : (25 : ℚ) < (sr : ℚ) := by
        rw [hdsr] at hd1
        linarith
      have hm5 : (5 : ℚ) < minimumRR sr := by
        unfold minimumRR
        have h02 : (0.2 : ℚ) = 1 / 5 := by norm_num
        rw [h02]
        linarith
      have hg6 : (6 : ℤ) ≤ b - a := by
        have h5q : (5 : ℚ) < ((b - a : ℤ) : ℚ) := lt_trans hm5 hg
        have h5z : (5 : ℤ) < b - a := by exact_mod_cast h5q
        omega
      omega
  · have hdiffz : (b - a - 1 : ℤ) ≤ delayComp sr b - delayComp sr a := by omega
    have hdiffq : ((b - a - 1 : ℤ) : ℚ) ≤ ((delayComp sr b - delayComp sr a : ℤ) : ℚ) := by
      exact_mod_cast hdiffz
    have : ((b - a - 1 : ℤ) : ℚ) = ((b - a : ℤ) : ℚ) - 1 := by
      push_cast
      ring
    linarith
  · intro hda
    rw [hexact hda]
    exact hg

/-- The mapped delay compensation preserves strict order and the
(possibly one-sample-weakened) refractory gaps.  (Helper for C2.) -/
theorem delayComp_map_chain (sr : ℕ) (ex : List ℤ)
    (hone : ∀ x ∈ ex, 1 ≤ x)
    (hpw : List.Pairwise (fun a b : ℤ => minimumRR sr < ((b - a : ℤ) : ℚ)) ex) :
    List.Chain' (· < ·) (ex.map (delayComp sr)) ∧
    List.Chain' (fun a b : ℤ => minimumRR sr - 1 < ((b - a : ℤ) : ℚ))
      (ex.map (delayComp sr)) ∧
    ((∀ x ∈ ex, 40 * ((sr : ℚ) / 1000) ≤ (x : ℚ)) →
      List.Chain' (fun a b : ℤ => minimumRR sr < ((b - a : ℤ) : ℚ))
        (ex.map (delayComp sr))) := by
  refine ⟨?_, ?_, ?_⟩
  · rw [List.chain'_map]
    exact (List.Pairwise.imp_of_mem
      (fun ha hb hr => (delayComp_lt sr _ _ (hone _ ha) hr).1) hpw).chain'
  · rw [List.chain'_map]
    exact (List.Pairwise.imp_of_mem
      (fun ha hb hr => (delayComp_lt sr _ _ (hone _ ha) hr).2.1) hpw).chain'
  · intro hcond
    rw [List.chain'_map]
    exact (List.Pairwise.imp_of_mem
      (fun ha hb hr => (delayComp_lt sr _ _ (hone _ ha) hr).2.2 (hcond _ ha)) hpw).chain'

/-- C2 amended: single-lead detection returns a strictly increasing
sequence whose gaps exceed the refractory distance minus one sample; the
uncompensated accepted peaks always have gaps above the refractory
distance, and the returned gaps do too whenever every accepted peak lies
at least 40 ms into the recording.  (The multi-lead reconciler violates
the claim: see the counterexample.) -/
theorem c2_single_lead_monotone (sr : ℕ) (ecg : List ℚ) (out : List ℤ)
    (h : qrs_detect_post sr ecg = some out) :
    List.Chain' (· < ·) out ∧
    List.Chain' (fun a b : ℤ => minimumRR sr - 1 < ((b - a : ℤ) : ℚ)) out ∧
    (∀ pks, peakDetect sr ecg = some pks →
      List.Chain' (fun a b : ℤ => minimumRR sr < ((b - a : ℤ) : ℚ))
        (acceptedQRS sr ecg pks) ∧
      ((∀ x ∈ acceptedQRS sr ecg pks, 40 * ((sr : ℚ) / 1000) ≤ (x : ℚ)) →
        List.Chain' (fun a b : ℤ => minimumRR sr < ((b - a : ℤ) : ℚ)) out)) := by
  have h0 : (0 : ℚ) ≤ minimumRR sr := by
    unfold minimumRR
    positivity
  unfold qrs_detect_post at h
  rcases hpd : peakDetect sr ecg with _ | pks
  · rw [hpd] at h
    simp at h
  · rw [hpd] at h
    simp only [Option.map_some', Option.some.injEq] at h
    obtain ⟨hchain, hmem⟩ := peakDetect_chain sr ecg pks hpd
    have hpw : List.Pairwise (fun a b : ℕ => minimumRR sr < (b : ℚ) - (a : ℚ)) pks := by
      haveI : IsTrans ℕ (fun a b : ℕ => minimumRR sr < (b : ℚ) - (a : ℚ)) :=
        ⟨fun a b c hab hbc => by linarith⟩
      exact List.chain'_iff_pairwise.mp hchain
    have hpwZ : List.Pairwise (fun a b : ℤ => minimumRR sr < ((b - a : ℤ) : ℚ))
        (pks.map (fun p : ℕ => (p : ℤ))) := by
      refine List.pairwise_map.mpr (hpw.imp ?_)
      intro a b hab
      show minimumRR sr < (((b : ℤ) - (a : ℤ) : ℤ) : ℚ)
      push_cast
      push_cast at hab
      exact hab
    have hsub := acceptedQRS_sublist sr ecg pks
    have hpwEx : List.Pairwise (fun a b : ℤ => minimumRR sr < ((b - a : ℤ) : ℚ))
        (acceptedQRS sr ecg pks) := List.Pairwise.sublist hsub hpwZ
    have hone : ∀ x ∈ acceptedQRS sr ecg pks, 1 ≤ x := by
      intro x hx
      have hx' := hsub.subset hx
      obtain ⟨p, hp, rfl⟩ := List.mem_map.mp hx'
      exact_mod_cast localMaxIndices_one_le ecg p (hmem p hp)
    obtain ⟨g1, g2, g3⟩ := delayComp_map_chain sr (acceptedQRS sr ecg pks) hone hpwEx
    rw [h] at g1 g2 g3
    refine ⟨g1, g2, ?_⟩
    intro pks' hpks'
    have hpkseq : pks' = pks := by
      simpa using hpks'.symm
    subst hpkseq
    exact ⟨hpwEx.chain', g3⟩

/-- Witness for the amended C2 at a concrete single-lead run: the
returned compensated sequence is [0, 3]. -/
theorem c2_single_lead_monotone_witness :
    List.Chain' (· < ·) ([0, 3] : List ℤ) ∧
    List.Chain' (fun a b : ℤ => minimumRR 10 - 1 < ((b - a : ℤ) : ℚ)) [0, 3] ∧
    (∀ pks, peakDetect 10 ecgA = some pks →
      List.Chain' (fun a b : ℤ => minimumRR 10 < ((b - a : ℤ) : ℚ))
        (acceptedQRS 10 ecgA pks) ∧
      ((∀ x ∈ acceptedQRS 10 ecgA pks, 40 * ((10 : ℚ) / 1000) ≤ (x : ℚ)) →
        List.Chain' (fun a b : ℤ => minimumRR 10 < ((b - a : ℤ) : ℚ)) [0, 3])) :=
  c2_single_lead_monotone 10 ecgA [0, 3] (by with_unfolding_all decide)

/-- Elementwise description of the slice assignment in the
near_inner > near_outer branch: the prefix is kept, the current row
receives the written value, later rows take the value of the row above.
(Helper for C5.) -/
theorem shiftDownCol_getD (col : List ℤ) (cur : ℕ) (m : ℤ) (hcur : cur < col.length) :
    (shiftDownCol col cur m).getD cur 0 = m ∧
    (∀ j, j < cur → (shiftDownCol col cur m).getD j 0 = col.getD j 0) ∧
    (∀ j, cur < j → j < col.length →
      (shiftDownCol col cur m).getD j 0 = col.getD (j - 1) 0) := by
  unfold shiftDownCol
  have hlt : (col.take cur).length = cur := by
    rw [List.length_take]
    omega
  refine ⟨?_, ?_, ?_⟩
  · rw [List.getD_eq_getElem?_getD, List.getElem?_append_right (by omega), hlt]
    simp
  · intro j hj
    rw [List.getD_eq_getElem?_getD, List.getElem?_append_left (by omega),
      List.getElem?_take_of_lt hj, ← List.getD_eq_getElem?_getD]
  · intro j hj1 hj2
    rw [List.getD_eq_getElem?_getD, List.getElem?_append_right (by omega), hlt]
    have hidx : j - cur = (j - cur - 1) + 1 := by omega
    rw [hidx, List.getElem?_cons_succ, List.getElem?_take_of_lt (by omega),
      List.getElem?_drop]
    have hj3 : cur + (j - cur - 1) = j - 1 := by omega
    rw [hj3, ← List.getD_eq_getElem?_getD]

/-- C5 amended: a row on which all leads agree appends the truncated
median and advances; a row with near_inner > near_outer retries without
advancing and without appending, leaving every other lead untouched,
and rewrites the outer-lead column by writing the truncated row median
at the current row and moving each later value down from the row above
(a downward shift that drops the last value, not the upward pull the
claim describes). -/
theorem c5_multilead_step_spec (sr : ℕ) (cols : List (List ℤ)) (cur : ℕ) :
    ((nearInner sr (mlRow cols cur) = cols.length ∧
      nearOuter sr (mlRow cols cur) = cols.length) →
      mlStep sr cols cur = (cols, cur + 1, [pyInt (medianQ (mlRow cols cur))])) ∧
    (¬ (nearInner sr (mlRow cols cur) = cols.length ∧
        nearOuter sr (mlRow cols cur) = cols.length) →
      nearOuter sr (mlRow cols cur) < nearInner sr (mlRow cols cur) →
      argmaxZ (mlRow cols cur) < cols.length →
      cur < (cols.getD (argmaxZ (mlRow cols cur)) []).length →
      (mlStep sr cols cur).2.1 = cur ∧
      (mlStep sr cols cur).2.2 = [] ∧
      (∀ l, l ≠ argmaxZ (mlRow cols cur) →
        (mlStep sr cols cur).1.getD l [] = cols.getD l []) ∧
      ((mlStep sr cols cur).1.getD (argmaxZ (mlRow cols cur)) []).getD cur 0
        = pyInt (medianQ (mlRow cols cur)) ∧
      (∀ j, j < cur →
        ((mlStep sr cols cur).1.getD (argmaxZ (mlRow cols cur)) []).getD j 0
          = (cols.getD (argmaxZ (mlRow cols cur)) []).getD j 0) ∧
      (∀ j, cur < j → j < (cols.getD (argmaxZ (mlRow cols cur)) []).length →
        ((mlStep sr cols cur).1.getD (argmaxZ (mlRow cols cur)) []).getD j 0
          = (cols.getD (argmaxZ (mlRow cols cur)) []).getD (j - 1) 0)) := by
  constructor
  · intro hagree
    simp only [mlStep]
    rw [if_pos hagree]
  · intro hne hlt hol hcur
    have hstep : mlStep sr cols cur =
        (cols.set (argmaxZ (mlRow cols cur))
          (shiftDownCol (cols.getD (argmaxZ (mlRow cols cur)) []) cur
            (pyInt (medianQ (mlRow cols cur)))), cur, []) := by
      simp only [mlStep]
      rw [if_neg hne, if_pos hlt]
    have hset : (mlStep sr cols cur).1.getD (argmaxZ (mlRow cols cur)) []
        = shiftDownCol (cols.getD (argmaxZ (mlRow cols cur)) []) cur
            (pyInt (medianQ (mlRow cols cur))) := by
      rw [hstep]
      rw [List.getD_eq_getElem?_getD]
      simp only [List.getElem?_set_self (by simpa using hol), Option.getD_some]
    obtain ⟨e1, e2, e3⟩ := shiftDownCol_getD (cols.getD (argmaxZ (mlRow cols cur)) [])
      cur (pyInt (medianQ (mlRow cols cur))) hcur
    refine ⟨by rw [hstep], by rw [hstep], ?_, ?_, ?_, ?_⟩
    · intro l hlne
      rw [hstep, List.getD_eq_getElem?_getD,
        List.getElem?_set_ne (fun hc => hlne hc.symm), ← List.getD_eq_getElem?_getD]
    · rw [hset]
      exact e1
    · intro j hj
      rw [hset]
      exact e2 j hj
    · intro j hj1 hj2
      rw [hset]
      exact e3 j hj1 hj2

/-- Witness for the amended C5 at the counterexample matrix: row 0 of
the outer lead receives the median 1000 and the old value 1090 moves
down to row 1. -/
theorem c5_multilead_step_spec_witness :
    (mlStep 1000 [[1000, 9999], [1000, 9999], [1090, 9999]] 0).2.1 = 0 ∧
    (mlStep 1000 [[1000, 9999], [1000, 9999], [1090, 9999]] 0).2.2 = [] ∧
    (∀ l, l ≠ argmaxZ (mlRow [[1000, 9999], [1000, 9999], [1090, 9999]] 0) →
      (mlStep 1000 [[1000, 9999], [1000, 9999], [1090, 9999]] 0).1.getD l []
        = ([[1000, 9999], [1000, 9999], [1090, 9999]] : List (List ℤ)).getD l []) ∧
    ((mlStep 1000 [[1000, 9999], [1000, 9999], [1090, 9999]] 0).1.getD
        (argmaxZ (mlRow [[1000, 9999], [1000, 9999], [1090, 9999]] 0)) []).getD 0 0
      = pyInt (medianQ (mlRow [[1000, 9999], [1000, 9999], [1090, 9999]] 0)) ∧
    (∀ j, j < 0 →
      ((mlStep 1000 [[1000, 9999], [1000, 9999], [1090, 9999]] 0).1.getD
          (argmaxZ (mlRow [[1000, 9999], [1000, 9999], [1090, 9999]] 0)) []).getD j 0
        = (([[1000, 9999], [1000, 9999], [1090, 9999]] : List (List ℤ)).getD
            (argmaxZ (mlRow [[1000, 9999], [1000, 9999], [1090, 9999]] 0)) []).getD j 0) ∧
    (∀ j, 0 < j →
      j < (([[1000, 9999], [1000, 9999], [1090, 9999]] : List (List ℤ)).getD
            (argmaxZ (mlRow [[1000, 9999], [1000, 9999], [1090, 9999]] 0)) []).length →
      ((mlStep 1000 [[1000, 9999], [1000, 9999], [1090, 9999]] 0).1.getD
          (argmaxZ (mlRow [[1000, 9999], [1000, 9999], [1090, 9999]] 0)) []).getD j 0
        = (([[1000, 9999], [1000, 9999], [1090, 9999]] : List (List ℤ)).getD
            (argmaxZ (mlRow [[1000, 9999], [1000, 9999], [1090, 9999]] 0)) []).getD
            (j - 1) 0) :=
  (c5_multilead_step_spec 1000 [[1000, 9999], [1000, 9999], [1090, 9999]] 0).2
    (by with_unfolding_all decide) (by with_unfolding_all decide)
    (by with_unfolding_all decide) (by with_unfolding_all decide)

/-- Counterexample to C8: at 1500 samples/s one sample lasts 2/3 ms, but
converting 1 ms to samples (int(1.5) = 1) and back
(int(1000/1500) = 0) loses a full millisecond, more than one sample's
worth of time. -/
theorem c8_counterexample :
    ms_to_samples 1 1500 = 1 ∧
    samples_to_ms ((ms_to_samples 1 1500 : ℤ) : ℚ) 1500 = 0 ∧
    ¬ (|(1 : ℚ) - ((samples_to_ms ((ms_to_samples 1 1500 : ℤ) : ℚ) 1500 : ℤ) : ℚ)|
        ≤ 1000 / 1500) := by with_unfolding_all decide

/-- C6: filtfilt raises exactly when the input array is not
one-dimensional or is shorter than 3 * max(len(a), len(b)); for
coefficients whose Gustafsson initial-state system is solvable (a
property of the filter, not of the signal), every input meeting the two
preconditions is filtered without error. -/
theorem c6_filtfilt_error_iff (b a : List ℚ) (x : PyArr)
    (hzi : (lfilter_zi (padB b a) (padA b a)).isSome = true) :
    (∃ msg, filtfilt b a x = Except.error msg) ↔
      (x.ndim ≠ 1 ∨ x.data.length < 3 * max a.length b.length) := by
  obtain ⟨zi, hzi'⟩ := Option.isSome_iff_exists.mp hzi
  unfold filtfilt
  by_cases h1 : x.ndim ≠ 1
  · rw [if_pos h1]
    constructor
    · intro _
      exact Or.inl h1
    · intro _
      exact ⟨_, rfl⟩
  · rw [if_neg h1]
    push_neg at h1
    by_cases h2 : x.data.length < max a.length b.length * 3
    · rw [if_pos h2]
      constructor
      · intro _
        right
        omega
      · intro _
        exact ⟨_, rfl⟩
    · rw [if_neg h2]
      simp only [hzi']
      constructor
      · rintro ⟨msg, hmsg⟩
        exact absurd hmsg (by simp)
      · rintro (hc | hc)
        · exact absurd h1 hc
        · omega

/-- Witness for C6 with the coefficients b = [1, 0], a = [1, 1/2]
(solvable initial-state system, zi = [-1/3]) and a six-sample
one-dimensional input, which is exactly the 3 * ntaps minimum: no error
is raised. -/
theorem c6_filtfilt_error_iff_witness :
    (∃ msg, filtfilt [1, 0] [1, 1 / 2] ⟨1, List.replicate 6 1⟩ = Except.error msg) ↔
      ((PyArr.mk 1 (List.replicate 6 1)).ndim ≠ 1 ∨
        (PyArr.mk 1 (List.replicate 6 1)).data.length <
          3 * max ([1, 1 / 2] : List ℚ).length ([1, 0] : List ℚ).length) :=
  c6_filtfilt_error_iff [1, 0] [1, 1 / 2] ⟨1, List.replicate 6 1⟩
    (by with_unfolding_all decide)

/-- C8 amended: the millisecond-to-samples round trip never overshoots,
and undershoots by strictly less than one sample worth of time plus
one millisecond (each int() truncation loses less than one of its own
unit). -/
theorem c8_roundtrip_bound (ms samplingrate : ℚ) (hms : 0 ≤ ms)
    (hsr : 0 < samplingrate) :
    0 ≤ ms - ((samples_to_ms ((ms_to_samples ms samplingrate : ℤ) : ℚ)
        samplingrate : ℤ) : ℚ) ∧
    ms - ((samples_to_ms ((ms_to_samples ms samplingrate : ℤ) : ℚ)
        samplingrate : ℤ) : ℚ) < 1000 / samplingrate + 1 := by
  have harg : 0 ≤ samplingrate * ms / 1000 := by positivity
  have hsq : ms_to_samples ms samplingrate = ⌊samplingrate * ms / 1000⌋ := by
    unfold ms_to_samples pyInt
    rw [if_pos harg]
  have hs0 : (0 : ℚ) ≤ ((ms_to_samples ms samplingrate : ℤ) : ℚ) := by
    rw [hsq]
    exact_mod_cast Int.floor_nonneg.mpr harg
  have harg2 : 0 ≤ ((ms_to_samples ms samplingrate : ℤ) : ℚ) * 1000 / samplingrate := by
    positivity
  have hback : samples_to_ms ((ms_to_samples ms samplingrate : ℤ) : ℚ) samplingrate
      = ⌊((ms_to_samples ms samplingrate : ℤ) : ℚ) * 1000 / samplingrate⌋ := by
    unfold samples_to_ms pyInt
    rw [if_pos harg2]
  set s : ℚ := ((ms_to_samples ms samplingrate : ℤ) : ℚ) with hsdef
  set t : ℚ := s * 1000 / samplingrate with htdef
  have hs_le : s ≤ samplingrate * ms / 1000 := by
    rw [hsdef, hsq]
    exact_mod_cast Int.floor_le _
  have hs_gt : samplingrate * ms / 1000 - 1 < s := by
    rw [hsdef, hsq]
    exact_mod_cast Int.sub_one_lt_floor _
  have hmul : (0 : ℚ) < 1000 / samplingrate := by positivity
  have ht_le : t ≤ ms := by
    rw [htdef]
    have h1 : s * (1000 / samplingrate) ≤ (samplingrate * ms / 1000) * (1000 / samplingrate) :=
      mul_le_mul_of_nonneg_right hs_le (le_of_lt hmul)
    have h2 : (samplingrate * ms / 1000) * (1000 / samplingrate) = ms := by
      field_simp
    have h3 : s * 1000 / samplingrate = s * (1000 / samplingrate) := by
      ring
    rw [h3]
    linarith
  have ht_gt : ms - 1000 / samplingrate < t := by
    rw [htdef]
    have h1 : (samplingrate * ms / 1000 - 1) * (1000 / samplingrate)
        < s * (1000 / samplingrate) :=
      mul_lt_mul_of_pos_right hs_gt hmul
    have h2 : (samplingrate * ms / 1000 - 1) * (1000 / samplingrate)
        = ms - 1000 / samplingrate := by
      field_simp
      ring
    have h3 : s * 1000 / samplingrate = s * (1000 / samplingrate) := by
      ring
    rw [h3]
    linarith
  have hb_le : ((⌊t⌋ : ℤ) : ℚ) ≤ t := Int.floor_le t
  have hb_gt : t - 1 < ((⌊t⌋ : ℤ) : ℚ) := by
    exact_mod_cast Int.sub_one_lt_floor t
  rw [hback]
  constructor
  · linarith
  · linarith

/-- Witness for the amended C8: 7 ms at 3 samples/s rounds down to zero
samples and back to 0 ms, an error of 7 ms, within 1000/3 + 1 ms. -/
theorem c8_roundtrip_bound_witness :
    0 ≤ (7 : ℚ) - ((samples_to_ms ((ms_to_samples 7 3 : ℤ) : ℚ) 3 : ℤ) : ℚ) ∧
    (7 : ℚ) - ((samples_to_ms ((ms_to_samples 7 3 : ℤ) : ℚ) 3 : ℤ) : ℚ)
      < 1000 / 3 + 1 :=
  c8_roundtrip_bound 7 3 (by norm_num) (by norm_num)

end Ecgtk
